import Mathlib

/-!
Verification of the chunked video-stream core of `src/api_stream.ts`
(awsl-telegram-storage).

Strings that flow through the manifest codec and the Range header parser
are modelled as `List Char`; remote object contents are `List Nat`
(byte values); JavaScript numbers occurring in range arithmetic are
modelled as `Int`, with `parseInt` returning `Option Int`
(`none` = `NaN`).

The platform primitives used by `decompressData` (`atob`, raw-deflate
decompression combined with UTF-8 decoding) are not part of the
repository: they are abstracted as a `Platform` record of functions,
while every transformation written in the source itself (base64url to
base64 character mapping, padding, manifest splitting, the range regex,
the planner loop, the slicing assembler) is embedded directly.
-/

/-- Decimal value of a digit character (used to model `parseInt`). -/
def digitVal (c : Char) : Nat := c.toNat - 48

/-- Value of a run of decimal digit characters, most significant first. -/
def digitsToNat (l : List Char) : Nat :=
  l.foldl (fun a c => a * 10 + digitVal c) 0

/-- Fuel-driven helper of `natDigits`, structurally recursive so that it
reduces inside the kernel. -/
def natDigitsF : Nat → Nat → List Char
  | 0, _ => []
  | fuel + 1, n =>
    if n < 10 then [Char.ofNat (48 + n)]
    else natDigitsF fuel (n / 10) ++ [Char.ofNat (48 + n % 10)]

/-- Decimal digit characters of a natural number (used to model the
producer-side `String(size)` serialisation). -/
def natDigits (n : Nat) : List Char := natDigitsF (n + 1) n

theorem natDigitsF_congr : ∀ (f g n : Nat), n < f → n < g →
    natDigitsF f n = natDigitsF g n := by
  intro f
  induction f with
  | zero => intro g n h _; omega
  | succ f ih =>
    intro g n hf hg
    match g with
    | 0 => omega
    | g + 1 =>
      by_cases h10 : n < 10
      · simp [natDigitsF, h10]
      · have hdiv : n / 10 < n := Nat.div_lt_self (by omega) (by omega)
        simp only [natDigitsF, h10, if_false]
        rw [ih g (n / 10) (by omega) (by omega)]

/-- Recurrence of `natDigits` mirroring decimal serialisation. -/
theorem natDigits_unfold (n : Nat) : natDigits n =
    if n < 10 then [Char.ofNat (48 + n)]
    else natDigits (n / 10) ++ [Char.ofNat (48 + n % 10)] := by
  by_cases h10 : n < 10
  · simp [natDigits, natDigitsF, h10]
  · have hdiv : n / 10 < n := Nat.div_lt_self (by omega) (by omega)
    simp only [natDigits, natDigitsF, h10, if_false]
    rw [natDigitsF_congr n (n / 10 + 1) (n / 10) hdiv (Nat.lt_succ_self _)]
    rfl

/-- Digit characters of an integer, with a leading minus sign when negative. -/
def intChars (i : Int) : List Char :=
  if i < 0 then '-' :: natDigits (-i).toNat else natDigits i.toNat

/-- JavaScript whitespace relevant to `parseInt`'s initial trim. -/
def jsSpace (c : Char) : Bool :=
  c == ' ' || c == '\t' || c == '\n' || c == '\r'

/-- Longest leading digit run interpreted as a number; `none` when there is
no leading digit (`parseInt` returns `NaN`). -/
def leadDigitsNat (l : List Char) : Option Nat :=
  let ds := l.takeWhile Char.isDigit
  if ds.isEmpty then none else some (digitsToNat ds)

/-- Model of JavaScript `parseInt(s, 10)`: trim leading whitespace, accept an
optional sign, then read the longest leading digit run; `none` models `NaN`. -/
def parseIntJS (l : List Char) : Option Int :=
  match l.dropWhile jsSpace with
  | '-' :: rest => (leadDigitsNat rest).map (fun n => -(n : Int))
  | '+' :: rest => (leadDigitsNat rest).map (fun n => (n : Int))
  | other => (leadDigitsNat other).map (fun n => (n : Int))

/-- JavaScript `String.prototype.split` with a single-character separator. -/
def splitCh (sep : Char) : List Char → List (List Char)
  | [] => [[]]
  | c :: rest =>
    if c = sep then [] :: splitCh sep rest
    else
      match splitCh sep rest with
      | [] => [[c]]
      | f :: r => (c :: f) :: r

/-- Join parts with a single-character separator (producer side of the
manifest codec: `chunks.map(c => ...).join(',')`). -/
def joinSep (sep : Char) : List (List Char) → List Char
  | [] => []
  | [x] => x
  | x :: y :: r => x ++ sep :: joinSep sep (y :: r)

/-- `base64url` to standard base64 character mapping of `decompressData`:
replace every dash with plus and every underscore with slash. -/
def urlToStd (l : List Char) : List Char :=
  l.map fun c => if c = '-' then '+' else if c = '_' then '/' else c

/-- Standard base64 to `base64url` character mapping of the documented
producer: replace every plus with dash and every slash with underscore. -/
def stdToUrl (l : List Char) : List Char :=
  l.map fun c => if c = '+' then '-' else if c = '/' then '_' else c

/-- Re-append base64 padding: `'='.repeat((4 - (base64.length % 4)) % 4)`. -/
def repad (l : List Char) : List Char :=
  l ++ List.replicate ((4 - l.length % 4) % 4) '='

/-- Strip trailing padding: the documented producer removes every
trailing equals sign. -/
def stripEq (l : List Char) : List Char :=
  (l.reverse.dropWhile (fun c => c == '=')).reverse

/-- Platform primitives used by `decompressData` that are not repository
code: `atob` (base64 text to bytes, `none` on invalid input) and the
composition of `DecompressionStream('deflate-raw')` with `TextDecoder`
(bytes to text, `none` when the deflate stream is invalid). -/
structure Platform where
  atob : List Char → Option (List Nat)
  inflateStr : List Nat → Option (List Char)

/-- `decompressData`: base64url to padded base64 (source lines 17-20),
`atob` plus `charCodeAt` (lines 22-27), then raw-deflate decompression and
UTF-8 decoding (lines 29-52). `none` models the thrown error. -/
def decompressData (pf : Platform) (p : List Char) : Option (List Char) :=
  (pf.atob (repad (urlToStd p))).bind pf.inflateStr

/-- Chunk entry as produced by `parseChunks` before validation:
`size = none` models `NaN`. -/
structure RawChunk where
  fileId : List Char
  size : Option Int
deriving DecidableEq

/-- Validated chunk information (`ChunkInfo` in the source). -/
structure ChunkInfo where
  fileId : List Char
  size : Int
deriving DecidableEq

/-- One entry of the plain manifest format:
`const [fileId, sizeStr] = chunk.split(':')` followed by
`parseInt(sizeStr, 10)`; a missing size field parses as `NaN`. -/
def parseEntry (entry : List Char) : RawChunk :=
  match splitCh ':' entry with
  | [] => ⟨[], none⟩
  | [fid] => ⟨fid, none⟩
  | fid :: sizeStr :: _ => ⟨fid, parseIntJS sizeStr⟩

/-- Plain-format manifest parsing: split on `,`, parse each entry. -/
def parsePlain (data : List Char) : List RawChunk :=
  (splitCh ',' data).map parseEntry

/-- `parseChunks`: auto-detect the compressed format by absence of `:`;
`none` models the `Failed to decompress chunks data` throw. -/
def parseChunksM (pf : Platform) (p : List Char) : Option (List RawChunk) :=
  if ':' ∈ p then some (parsePlain p)
  else (decompressData pf p).map parsePlain

/-- The handler's manifest decoding: `parseChunks` followed by the
validation `chunks.length === 0 || chunks.some(ch => !ch.fileId ||
isNaN(ch.size))`; `none` models the 400 path. -/
def decodeChunks (pf : Platform) (p : List Char) : Option (List ChunkInfo) :=
  match parseChunksM pf p with
  | none => none
  | some l =>
    if l.isEmpty || l.any (fun c => c.fileId.isEmpty || c.size.isNone) then none
    else some (l.map fun c => ⟨c.fileId, c.size.getD 0⟩)

/-- Attempted match of the regex `bytes=(\d*)-(\d*)` at the head of the
list: the literal `bytes=`, a greedy digit run, `-`, a greedy digit run.
Greediness with backtracking coincides with taking the maximal digit run,
because a shortened run would end at a digit, not at `-`. -/
def regexMatchAt (l : List Char) : Option (List Char × List Char) :=
  match l with
  | 'b' :: 'y' :: 't' :: 'e' :: 's' :: '=' :: rest =>
    match rest.dropWhile Char.isDigit with
    | '-' :: rest2 => some (rest.takeWhile Char.isDigit, rest2.takeWhile Char.isDigit)
    | _ => none
  | _ => none

/-- JavaScript `String.prototype.match` with the unanchored regex
`bytes=(\d*)-(\d*)`: first match position wins. -/
def regexSearch : List Char → Option (List Char × List Char)
  | [] => none
  | c :: rest =>
    match regexMatchAt (c :: rest) with
    | some r => some r
    | none => regexSearch rest

/-- Range-header interpretation (source lines 171-184): returns
`(start, end, statusCode)`. A group produced by `(\d*)` is a digit run, so
`parseInt` on a non-empty group is its decimal value `digitsToNat`. -/
def parseRange (hdr : Option (List Char)) (totalSize : Int) : Int × Int × Nat :=
  match hdr with
  | none => (0, totalSize - 1, 200)
  | some h =>
    match regexSearch h with
    | none => (0, totalSize - 1, 200)
    | some (g1, g2) =>
      ((if g1.isEmpty then 0 else (digitsToNat g1 : Int)),
       (if g2.isEmpty then totalSize - 1 else min (digitsToNat g2 : Int) (totalSize - 1)),
       206)

/-- Per-chunk fetch-and-slice task (`ChunkTask` in `createVideoStream`). -/
structure ChunkTask where
  fileId : List Char
  sliceStart : Int
  sliceEnd : Int
  fullChunk : Bool
deriving DecidableEq

/-- Task-planning loop of `createVideoStream` (source lines 237-257),
with the running position `pos` made explicit: skip chunks entirely
before the range, stop at the first chunk entirely after it, emit a
slice task for every other chunk. -/
def planAux : List ChunkInfo → Int → Int → Int → List ChunkTask
  | [], _, _, _ => []
  | c :: rest, pos, start, end_ =>
    if pos + c.size - 1 < start then planAux rest (pos + c.size) start end_
    else if pos > end_ then []
    else
      ⟨c.fileId, max 0 (start - pos), min c.size (end_ - pos + 1),
        max 0 (start - pos) == 0 && min c.size (end_ - pos + 1) == c.size⟩ ::
      planAux rest (pos + c.size) start end_

/-- Instrumented twin of `planAux` that additionally records, for each
emitted task, the logical start offset of its chunk and the chunk itself;
`planAuxI_map` proves it produces exactly the tasks of `planAux`. -/
def planAuxI : List ChunkInfo → Int → Int → Int → List (Int × ChunkInfo × ChunkTask)
  | [], _, _, _ => []
  | c :: rest, pos, start, end_ =>
    if pos + c.size - 1 < start then planAuxI rest (pos + c.size) start end_
    else if pos > end_ then []
    else
      (pos, c,
        ⟨c.fileId, max 0 (start - pos), min c.size (end_ - pos + 1),
          max 0 (start - pos) == 0 && min c.size (end_ - pos + 1) == c.size⟩) ::
      planAuxI rest (pos + c.size) start end_

/-- ECMAScript `TypedArray.prototype.slice(s, e)`: negative indices count
from the end, indices clamp to `[0, length]`. -/
def jsSlice (data : List Nat) (s e : Int) : List Nat :=
  (data.drop (if s < 0 then max ((data.length : Int) + s) 0
    else min s (data.length : Int)).toNat).take
    ((if e < 0 then max ((data.length : Int) + e) 0 else min e (data.length : Int)) -
      (if s < 0 then max ((data.length : Int) + s) 0
        else min s (data.length : Int))).toNat

/-- Bytes emitted for one task by the `pull` callback (source lines
270-285): a passthrough task forwards the fetched object unchanged, a
sliced task materialises it and enqueues `data.slice(sliceStart, sliceEnd)`. -/
def emitTask (fetch : List Char → List Nat) (t : ChunkTask) : List Nat :=
  if t.fullChunk then fetch t.fileId else jsSlice (fetch t.fileId) t.sliceStart t.sliceEnd

/-- Concatenated output of the assembled stream over a task list, with
`fetch` giving the materialised bytes of each remote object. -/
def assembleBytes (fetch : List Char → List Nat) (tasks : List ChunkTask) : List Nat :=
  tasks.flatMap (emitTask fetch)

/-- Logical concatenation of all chunks' fetched contents. -/
def fullContent (fetch : List Char → List Nat) (chunks : List ChunkInfo) : List Nat :=
  (chunks.map fun c => fetch c.fileId).flatten

/-- `totalSize = chunks.reduce((sum, chunk) => sum + chunk.size, 0)`. -/
def sumSizes (chunks : List ChunkInfo) : Int :=
  (chunks.map (·.size)).sum

/-- Body of a handler response: structured JSON error, plain text, or the
assembled stream over the planned tasks. -/
inductive RBody where
  | jsonError (error : String)
  | text (s : String)
  | stream (tasks : List ChunkTask)
deriving DecidableEq

/-- Observable part of a handler response: status code, the headers the
handler sets, and the body. -/
structure RespOut where
  status : Nat
  contentRange : Option String
  contentLength : Option Int
  acceptRanges : Option String
  contentType : Option String
  cacheControl : Option String
  body : RBody
deriving DecidableEq

/-- `VideoStreamEndpoint.handle` (source lines 149-216): missing parameter
and manifest-decoding failures give 400, an unsatisfiable range gives 416
with a fixed text body, otherwise the response streams the planned tasks
with `Content-Length` set to `end - start + 1`. -/
def handle (pf : Platform) (chunksParam : Option (List Char))
    (rangeHeader : Option (List Char)) : RespOut :=
  match chunksParam with
  | none => ⟨400, none, none, none, none, none, .jsonError "Missing chunks parameter"⟩
  | some p =>
    match decodeChunks pf p with
    | none => ⟨400, none, none, none, none, none,
        .jsonError "Invalid chunks format. Expected: file_id:size,file_id:size,... or compressed base64url"⟩
    | some chunks =>
      let totalSize := sumSizes chunks
      match parseRange rangeHeader totalSize with
      | (start, end_, statusCode) =>
        if start ≥ totalSize ∨ start > end_ then
          ⟨416, some s!"bytes */{totalSize}", none, none, none, none,
            .text "Range Not Satisfiable"⟩
        else
          ⟨statusCode,
            if statusCode = 206 then some s!"bytes {start}-{end_}/{totalSize}" else none,
            some (end_ - start + 1),
            some "bytes",
            some "video/mp4",
            some "public, max-age=31536000, immutable",
            .stream (planAux chunks 0 start end_)⟩

/-- Producer-side plain encoding: join `identifier:size` pairs with `,`. -/
def encodePlain (m : List ChunkInfo) : List Char :=
  joinSep ',' (m.map fun c => c.fileId ++ ':' :: intChars c.size)

/-- Producer-side compressed encoding, from the documented
`compressChunks`: deflate the plain form, base64-encode, map to the
URL-safe alphabet and strip padding. `deflateStr` combines the UTF-8
encoding with `CompressionStream('deflate-raw')`; `btoa` is the platform
base64 encoder. -/
def encodeCompressed (btoa : List Nat → List Char) (deflateStr : List Char → List Nat)
    (m : List ChunkInfo) : List Char :=
  stripEq (stdToUrl (btoa (deflateStr (encodePlain m))))

/-- Toy platform base64 pair used to instantiate the abstract codec in
witnesses: each byte below 1000 becomes a `Q`-prefixed three-digit block. -/
def toyBtoa (bs : List Nat) : List Char :=
  bs.flatMap fun b =>
    ['Q', Char.ofNat (48 + b / 100 % 10), Char.ofNat (48 + b / 10 % 10), Char.ofNat (48 + b % 10)]

/-- Toy inverse of `toyBtoa`. -/
def toyAtob : List Char → Option (List Nat)
  | [] => some []
  | _ :: a :: b :: c :: rest =>
    (toyAtob rest).map fun r => (digitVal a * 100 + digitVal b * 10 + digitVal c) :: r
  | _ => none

/-- Toy string-to-bytes compressor: code points of the characters. -/
def toyDeflate (s : List Char) : List Nat := s.map Char.toNat

/-- Toy inverse of `toyDeflate`. -/
def toyInflate (bs : List Nat) : Option (List Char) := some (bs.map Char.ofNat)

/-- Toy platform used to close witness statements. -/
def toyPf : Platform := ⟨toyAtob, toyInflate⟩

example : decodeChunks toyPf "a:2,b:3".data = some [⟨['a'], 2⟩, ⟨['b'], 3⟩] := by decide
example : decodeChunks toyPf "a:0".data = some [⟨['a'], 0⟩] := by decide
example : decodeChunks toyPf "a:x".data = none := by decide
example : decodeChunks toyPf "a:-2".data = some [⟨['a'], -2⟩] := by decide
example : parseRange (some "bytes=5-15".data) 30 = (5, 15, 206) := by decide
example : parseRange (some "bytes=-4".data) 5 = (0, 4, 206) := by decide
example : parseRange (some "garbage".data) 5 = (0, 4, 200) := by decide
example : parseRange none 5 = (0, 4, 200) := by decide
example :
    planAux [⟨['a'], 10⟩, ⟨['b'], 20⟩] 0 5 15 =
      [⟨['a'], 5, 10, false⟩, ⟨['b'], 0, 6, false⟩] := by decide
example :
    assembleBytes (fun fid => if fid = ['a'] then [10, 20] else [30, 40, 50])
      (planAux [⟨['a'], 2⟩, ⟨['b'], 3⟩] 0 1 3) = [20, 30, 40] := by decide
example :
    decodeChunks toyPf
      (encodeCompressed toyBtoa toyDeflate [⟨['a'], 3⟩, ⟨['b', 'c'], 12⟩]) =
      some [⟨['a'], 3⟩, ⟨['b', 'c'], 12⟩] := by decide
example :
    (handle toyPf (some "a:2,b:-2,c:2,d:2".data) none).contentLength = some 4 := by decide
example :
    ((planAux [⟨['a'], 2⟩, ⟨['b'], -2⟩, ⟨['c'], 2⟩, ⟨['d'], 2⟩] 0 0 3).map
      (fun t => t.sliceEnd - t.sliceStart)).sum = 6 := by decide

theorem digitChar_isDigit (d : Nat) (h : d < 10) : (Char.ofNat (48 + d)).isDigit = true := by
  interval_cases d <;> decide

theorem digitChar_val (d : Nat) (h : d < 10) : digitVal (Char.ofNat (48 + d)) = d := by
  interval_cases d <;> decide

theorem natDigits_ne_nil (n : Nat) : natDigits n ≠ [] := by
  rw [natDigits_unfold]; split <;> simp

theorem natDigits_isDigit (n : Nat) : ∀ c ∈ natDigits n, c.isDigit = true := by
  induction n using Nat.strong_induction_on with
  | _ n ih =>
    rw [natDigits_unfold]
    split
    · next h =>
      intro c hc
      simp only [List.mem_singleton] at hc
      subst hc
      exact digitChar_isDigit n h
    · next h =>
      intro c hc
      rw [List.mem_append] at hc
      rcases hc with hc | hc
      · exact ih (n / 10) (Nat.div_lt_self (by omega) (by omega)) c hc
      · simp only [List.mem_singleton] at hc
        subst hc
        exact digitChar_isDigit (n % 10) (Nat.mod_lt _ (by omega))

theorem digitsToNat_append_singleton (l : List Char) (c : Char) :
    digitsToNat (l ++ [c]) = digitsToNat l * 10 + digitVal c := by
  simp [digitsToNat, List.foldl_append]

theorem digitsToNat_natDigits (n : Nat) : digitsToNat (natDigits n) = n := by
  induction n using Nat.strong_induction_on with
  | _ n ih =>
    rw [natDigits_unfold]
    split
    · next h =>
      have hv := digitChar_val n h
      simp [digitsToNat, hv]
    · next h =>
      rw [digitsToNat_append_singleton,
        ih (n / 10) (Nat.div_lt_self (by omega) (by omega)),
        digitChar_val (n % 10) (Nat.mod_lt _ (by omega))]
      omega

theorem isDigit_char_ne {c : Char} (h : c.isDigit = true) (d : Char)
    (hd : d.isDigit = false) : c ≠ d := by
  intro he
  subst he
  rw [h] at hd
  cases hd

theorem jsSpace_eq_false_of_isDigit {c : Char} (h : c.isDigit = true) :
    jsSpace c = false := by
  have h1 : c ≠ ' ' := isDigit_char_ne h ' ' (by decide)
  have h2 : c ≠ '\t' := isDigit_char_ne h '\t' (by decide)
  have h3 : c ≠ '\n' := isDigit_char_ne h '\n' (by decide)
  have h4 : c ≠ '\r' := isDigit_char_ne h '\r' (by decide)
  simp [jsSpace, beq_eq_false_iff_ne, h1, h2, h3, h4]

theorem takeWhile_eq_self {α : Type} {p : α → Bool} :
    ∀ {l : List α}, (∀ c ∈ l, p c = true) → l.takeWhile p = l := by
  intro l
  induction l with
  | nil => intro _; rfl
  | cons c cs ih =>
    intro h
    rw [List.takeWhile_cons, h c (by simp)]
    simp [ih fun x hx => h x (by simp [hx])]

theorem parseIntJS_digits (l : List Char) (hne : l ≠ [])
    (hd : ∀ c ∈ l, c.isDigit = true) :
    parseIntJS l = some ((digitsToNat l : Nat) : Int) := by
  match l, hne with
  | c :: cs, _ =>
    have hds : List.dropWhile jsSpace (c :: cs) = c :: cs := by
      rw [List.dropWhile_cons, jsSpace_eq_false_of_isDigit (hd c (by simp))]
      simp
    have hcm : c ≠ '-' := isDigit_char_ne (hd c (by simp)) '-' (by decide)
    have hcp : c ≠ '+' := isDigit_char_ne (hd c (by simp)) '+' (by decide)
    simp only [parseIntJS, hds]
    split
    · next heq => exact absurd (List.head_eq_of_cons_eq heq) hcm
    · next heq => exact absurd (List.head_eq_of_cons_eq heq) hcp
    · simp [leadDigitsNat, takeWhile_eq_self hd]

theorem splitCh_ne_nil (sep : Char) : ∀ l, splitCh sep l ≠ [] := by
  intro l
  induction l with
  | nil => simp [splitCh]
  | cons c cs ih =>
    rw [splitCh]
    split
    · simp
    · split
      · simp
      · simp

theorem splitCh_no_sep (sep : Char) : ∀ l, sep ∉ l → splitCh sep l = [l] := by
  intro l
  induction l with
  | nil => intro _; rfl
  | cons c cs ih =>
    intro h
    have hc : ¬c = sep := fun he => h (by simp [he])
    have ht : sep ∉ cs := fun hm => h (by simp [hm])
    rw [splitCh, if_neg hc, ih ht]

theorem splitCh_append (sep : Char) :
    ∀ a b, sep ∉ a → splitCh sep (a ++ sep :: b) = a :: splitCh sep b := by
  intro a
  induction a with
  | nil => intro b _; simp [splitCh]
  | cons c cs ih =>
    intro b h
    have hc : ¬c = sep := fun he => h (by simp [he])
    have ht : sep ∉ cs := fun hm => h (by simp [hm])
    rw [List.cons_append, splitCh, if_neg hc, ih b ht]

theorem splitCh_join (sep : Char) :
    ∀ parts, parts ≠ [] → (∀ p ∈ parts, sep ∉ p) →
      splitCh sep (joinSep sep parts) = parts := by
  intro parts
  induction parts with
  | nil => intro h _; exact absurd rfl h
  | cons x r ih =>
    intro _ hall
    match r with
    | [] => exact splitCh_no_sep sep x (hall x (by simp))
    | y :: r' =>
      rw [joinSep, splitCh_append sep x _ (hall x (by simp)),
        ih (by simp) fun p hp => hall p (by simp [hp])]

theorem parseEntry_good (fid : List Char) (n : Nat) (hf : ':' ∉ fid) :
    parseEntry (fid ++ ':' :: natDigits n) = ⟨fid, some ((n : Nat) : Int)⟩ := by
  have hdig : ':' ∉ natDigits n := fun hm =>
    isDigit_char_ne (natDigits_isDigit n ':' hm) ':' (by decide) rfl
  rw [parseEntry, splitCh_append ':' fid _ hf, splitCh_no_sep ':' _ hdig]
  simp [parseIntJS_digits (natDigits n) (natDigits_ne_nil n) (natDigits_isDigit n),
    digitsToNat_natDigits]

theorem intChars_pos {i : Int} (h : 0 < i) : intChars i = natDigits i.toNat := by
  rw [intChars, if_neg (by omega)]

theorem colon_mem_encodePlain (m : List ChunkInfo) (hm : m ≠ []) :
    ':' ∈ encodePlain m := by
  match m, hm with
  | c :: r, _ =>
    rw [encodePlain]
    match r with
    | [] => simp [joinSep]
    | y :: r' => simp [joinSep]

theorem parsePlain_encodePlain (m : List ChunkInfo) (hm : m ≠ [])
    (hv : ∀ c ∈ m, c.fileId ≠ [] ∧ ':' ∉ c.fileId ∧ ',' ∉ c.fileId ∧ 0 < c.size) :
    parsePlain (encodePlain m) = m.map fun c => ⟨c.fileId, some c.size⟩ := by
  rw [parsePlain, encodePlain, splitCh_join ',' _ (by simp [hm])]
  · rw [List.map_map]
    apply List.map_congr_left
    intro c hc
    obtain ⟨h1, h2, h3, h4⟩ := hv c hc
    show parseEntry (c.fileId ++ ':' :: intChars c.size) = _
    rw [intChars_pos h4, parseEntry_good c.fileId c.size.toNat h2]
    have he : ((c.size.toNat : Nat) : Int) = c.size := by omega
    rw [he]
  · intro p hp
    rw [List.mem_map] at hp
    obtain ⟨c, hc, rfl⟩ := hp
    obtain ⟨h1, h2, h3, h4⟩ := hv c hc
    intro hmem
    rw [List.mem_append] at hmem
    rcases hmem with hmem | hmem
    · exact h3 hmem
    · rw [List.mem_cons] at hmem
      rcases hmem with hmem | hmem
      · cases hmem
      · rw [intChars_pos h4] at hmem
        exact isDigit_char_ne (natDigits_isDigit _ ',' hmem) ',' (by decide) rfl

theorem decodeChunks_of_parsed (pf : Platform) (p : List Char) (m : List ChunkInfo)
    (hm : m ≠ [])
    (hv : ∀ c ∈ m, c.fileId ≠ [] ∧ ':' ∉ c.fileId ∧ ',' ∉ c.fileId ∧ 0 < c.size)
    (hp : parseChunksM pf p = some (parsePlain (encodePlain m))) :
    decodeChunks pf p = some m := by
  rw [decodeChunks, hp, parsePlain_encodePlain m hm hv]
  have hval : (m.map fun c => (⟨c.fileId, some c.size⟩ : RawChunk)).isEmpty = false := by
    match m, hm with
    | c :: r, _ => rfl
  have hany : (m.map fun c => (⟨c.fileId, some c.size⟩ : RawChunk)).any
      (fun c => c.fileId.isEmpty || c.size.isNone) = false := by
    rw [List.any_eq_false]
    intro c hc
    rw [List.mem_map] at hc
    obtain ⟨x, hx, rfl⟩ := hc
    obtain ⟨h1, _, _, _⟩ := hv x hx
    simp [List.isEmpty_eq_true, h1]
  simp only [hval, hany, Bool.or_self, Bool.false_or, if_neg Bool.false_ne_true]
  rw [List.map_map]
  have hid : ∀ c ∈ m,
      ((fun c : RawChunk => (⟨c.fileId, c.size.getD 0⟩ : ChunkInfo)) ∘
        fun c : ChunkInfo => (⟨c.fileId, some c.size⟩ : RawChunk)) c = id c := by
    intro c _
    cases c
    rfl
  rw [List.map_congr_left hid, List.map_id]

theorem decodeChunks_encodePlain (pf : Platform) (m : List ChunkInfo) (hm : m ≠ [])
    (hv : ∀ c ∈ m, c.fileId ≠ [] ∧ ':' ∉ c.fileId ∧ ',' ∉ c.fileId ∧ 0 < c.size) :
    decodeChunks pf (encodePlain m) = some m := by
  apply decodeChunks_of_parsed pf _ m hm hv
  rw [parseChunksM, if_pos (colon_mem_encodePlain m hm)]

theorem mem_stripEq {c : Char} {l : List Char} (h : c ∈ stripEq l) : c ∈ l := by
  rw [stripEq, List.mem_reverse] at h
  exact List.mem_reverse.mp ((List.dropWhile_sublist _).mem h)

theorem stripEq_stdToUrl (l : List Char) : stripEq (stdToUrl l) = stdToUrl (stripEq l) := by
  have hq : ((fun c : Char => c == '=') ∘
      fun c : Char => if c = '+' then '-' else if c = '/' then '_' else c) =
      fun c : Char => c == '=' := by
    funext d
    show ((if d = '+' then '-' else if d = '/' then '_' else d) == '=') = (d == '=')
    by_cases h1 : d = '+'
    · subst h1; decide
    · by_cases h2 : d = '/'
      · subst h2; decide
      · simp [h1, h2]
  simp only [stripEq, stdToUrl]
  rw [← List.map_reverse, List.dropWhile_map, hq, List.map_reverse]

theorem urlToStd_stdToUrl (l : List Char) (h : ∀ c ∈ l, c ≠ '-' ∧ c ≠ '_') :
    urlToStd (stdToUrl l) = l := by
  rw [stdToUrl, urlToStd, List.map_map]
  have hid : ∀ c ∈ l,
      ((fun c : Char => if c = '-' then '+' else if c = '_' then '/' else c) ∘
        fun c : Char => if c = '+' then '-' else if c = '/' then '_' else c) c = id c := by
    intro c hc
    obtain ⟨h1, h2⟩ := h c hc
    by_cases hp : c = '+'
    · subst hp; decide
    · by_cases hs : c = '/'
      · subst hs; decide
      · show (if (if c = '+' then '-' else if c = '/' then '_' else c) = '-' then '+'
          else if (if c = '+' then '-' else if c = '/' then '_' else c) = '_' then '/'
          else if c = '+' then '-' else if c = '/' then '_' else c) = c
        simp [hp, hs, h1, h2]
  rw [List.map_congr_left hid, List.map_id]

theorem colon_not_mem_stdToUrl {l : List Char} (h : ∀ c ∈ l, c ≠ ':') :
    ':' ∉ stdToUrl l := by
  intro hm
  rw [stdToUrl, List.mem_map] at hm
  obtain ⟨d, hd, he⟩ := hm
  by_cases hp : d = '+'
  · subst hp; exact absurd he (by decide)
  · by_cases hs : d = '/'
    · subst hs; exact absurd he (by decide)
    · rw [if_neg hp, if_neg hs] at he
      exact h d hd he

theorem decodeChunks_encodeCompressed (pf : Platform) (btoa : List Nat → List Char)
    (deflateStr : List Char → List Nat) (m : List ChunkInfo) (hm : m ≠ [])
    (hv : ∀ c ∈ m, c.fileId ≠ [] ∧ ':' ∉ c.fileId ∧ ',' ∉ c.fileId ∧ 0 < c.size)
    (halpha : ∀ c ∈ btoa (deflateStr (encodePlain m)), c ≠ '-' ∧ c ≠ '_' ∧ c ≠ ':')
    (hpad : repad (stripEq (btoa (deflateStr (encodePlain m)))) =
      btoa (deflateStr (encodePlain m)))
    (hatob : pf.atob (btoa (deflateStr (encodePlain m))) =
      some (deflateStr (encodePlain m)))
    (hinf : pf.inflateStr (deflateStr (encodePlain m)) = some (encodePlain m)) :
    decodeChunks pf (encodeCompressed btoa deflateStr m) = some m := by
  apply decodeChunks_of_parsed pf _ m hm hv
  have hnc : ':' ∉ encodeCompressed btoa deflateStr m := by
    intro hc
    rw [encodeCompressed] at hc
    exact colon_not_mem_stdToUrl (fun c hcm => (halpha c hcm).2.2) (mem_stripEq hc)
  rw [parseChunksM, if_neg hnc, decompressData, encodeCompressed, stripEq_stdToUrl,
    urlToStd_stdToUrl _ (fun c hc => ⟨(halpha c (mem_stripEq hc)).1,
      (halpha c (mem_stripEq hc)).2.1⟩),
    hpad, hatob, Option.some_bind, hinf]
  rfl

theorem sumSizes_cons (c : ChunkInfo) (rest : List ChunkInfo) :
    sumSizes (c :: rest) = c.size + sumSizes rest := by
  simp [sumSizes]

theorem planAux_stop (chunks : List ChunkInfo) (pos start end_ : Int)
    (hpos : ∀ c ∈ chunks, 0 < c.size) (hse : start ≤ end_) (h : end_ < pos) :
    planAux chunks pos start end_ = [] := by
  match chunks with
  | [] => rfl
  | c :: rest =>
    have hc := hpos c (by simp)
    rw [planAux, if_neg (by omega), if_pos (by omega)]

theorem planAuxI_stop (chunks : List ChunkInfo) (pos start end_ : Int)
    (hpos : ∀ c ∈ chunks, 0 < c.size) (hse : start ≤ end_) (h : end_ < pos) :
    planAuxI chunks pos start end_ = [] := by
  match chunks with
  | [] => rfl
  | c :: rest =>
    have hc := hpos c (by simp)
    rw [planAuxI, if_neg (by omega), if_pos (by omega)]

theorem planAuxI_map (chunks : List ChunkInfo) :
    ∀ pos start end_ : Int,
      (planAuxI chunks pos start end_).map (fun x => x.2.2) =
        planAux chunks pos start end_ := by
  induction chunks with
  | nil => intro pos start end_; rfl
  | cons c rest ih =>
    intro pos start end_
    rw [planAux, planAuxI]
    by_cases h1 : pos + c.size - 1 < start
    · rw [if_pos h1, if_pos h1, ih]
    · by_cases h2 : pos > end_
      · rw [if_neg h1, if_neg h1, if_pos h2, if_pos h2]
        rfl
      · rw [if_neg h1, if_neg h1, if_neg h2, if_neg h2, List.map_cons, ih]

theorem planAux_slice_bounds (chunks : List ChunkInfo) :
    ∀ pos start end_ : Int, (∀ c ∈ chunks, 0 < c.size) → start ≤ end_ →
      ∀ t ∈ planAux chunks pos start end_, 0 ≤ t.sliceStart ∧ t.sliceStart < t.sliceEnd := by
  induction chunks with
  | nil => intro pos start end_ _ _ t ht; cases ht
  | cons c rest ih =>
    intro pos start end_ hpos hse t ht
    have hc := hpos c (by simp)
    have hrest : ∀ x ∈ rest, 0 < x.size := fun x hx => hpos x (by simp [hx])
    rw [planAux] at ht
    by_cases h1 : pos + c.size - 1 < start
    · rw [if_pos h1] at ht
      exact ih _ _ _ hrest hse t ht
    · by_cases h2 : pos > end_
      · rw [if_neg h1, if_pos h2] at ht
        cases ht
      · rw [if_neg h1, if_neg h2] at ht
        rcases List.mem_cons.mp ht with rfl | ht
        · refine ⟨by simp, ?_⟩
          show max 0 (start - pos) < min c.size (end_ - pos + 1)
          omega
        · exact ih _ _ _ hrest hse t ht

theorem planAux_sum (chunks : List ChunkInfo) :
    ∀ pos start end_ : Int, (∀ c ∈ chunks, 0 < c.size) → start ≤ end_ →
      end_ < pos + sumSizes chunks →
      ((planAux chunks pos start end_).map (fun t => t.sliceEnd - t.sliceStart)).sum =
        max 0 (end_ + 1 - max start pos) := by
  induction chunks with
  | nil =>
    intro pos start end_ _ hse htot
    rw [show sumSizes [] = 0 from rfl] at htot
    simp only [planAux, List.map_nil, List.sum_nil]
    omega
  | cons c rest ih =>
    intro pos start end_ hpos hse htot
    have hc := hpos c (by simp)
    have hrest : ∀ x ∈ rest, 0 < x.size := fun x hx => hpos x (by simp [hx])
    rw [sumSizes_cons] at htot
    rw [planAux]
    by_cases h1 : pos + c.size - 1 < start
    · rw [if_pos h1, ih (pos + c.size) start end_ hrest hse (by omega)]
      omega
    · by_cases h2 : pos > end_
      · rw [if_neg h1, if_pos h2]
        simp only [List.map_nil, List.sum_nil]
        omega
      · rw [if_neg h1, if_neg h2, List.map_cons, List.sum_cons,
          ih (pos + c.size) start end_ hrest hse (by omega)]
        dsimp only
        omega

/-- Absolute logical byte interval covered by an instrumented task:
`[chunkStart + sliceStart, chunkStart + sliceEnd)`. -/
def absIv (x : Int × ChunkInfo × ChunkTask) : Int × Int :=
  (x.1 + x.2.2.sliceStart, x.1 + x.2.2.sliceEnd)

theorem planAuxI_chain (chunks : List ChunkInfo) :
    ∀ pos start end_ : Int, (∀ c ∈ chunks, 0 < c.size) → start ≤ end_ →
      List.Chain' (fun a b : Int × Int => a.2 = b.1)
        ((planAuxI chunks pos start end_).map absIv) ∧
      ∀ iv ∈ ((planAuxI chunks pos start end_).map absIv).head?, iv.1 = max start pos := by
  induction chunks with
  | nil =>
    intro pos start end_ _ _
    exact ⟨List.chain'_nil, by simp [planAuxI]⟩
  | cons c rest ih =>
    intro pos start end_ hpos hse
    have hc := hpos c (by simp)
    have hrest : ∀ x ∈ rest, 0 < x.size := fun x hx => hpos x (by simp [hx])
    rw [planAuxI]
    by_cases h1 : pos + c.size - 1 < start
    · rw [if_pos h1]
      obtain ⟨hch, hhd⟩ := ih (pos + c.size) start end_ hrest hse
      refine ⟨hch, fun iv hiv => ?_⟩
      rw [hhd iv hiv]
      omega
    · by_cases h2 : pos > end_
      · rw [if_neg h1, if_pos h2]
        exact ⟨List.chain'_nil, by simp⟩
      · rw [if_neg h1, if_neg h2, List.map_cons]
        obtain ⟨hch, hhd⟩ := ih (pos + c.size) start end_ hrest hse
        constructor
        · rw [List.chain'_cons']
          refine ⟨fun b hb => ?_, hch⟩
          by_cases hstop : end_ < pos + c.size
          · rw [planAuxI_stop rest _ _ _ hrest hse hstop] at hb
            simp at hb
          · have hb1 := hhd b hb
            rw [hb1]
            show pos + min c.size (end_ - pos + 1) = max start (pos + c.size)
            omega
        · intro iv hiv
          simp only [List.head?_cons, Option.mem_some_iff] at hiv
          subst hiv
          show pos + max 0 (start - pos) = max start pos
          omega

theorem planAux_after_start (chunks : List ChunkInfo) :
    ∀ pos start end_ : Int, (∀ c ∈ chunks, 0 < c.size) → start ≤ end_ → start < pos →
      ∀ t ∈ (planAux chunks pos start end_).dropLast, t.fullChunk = true := by
  induction chunks with
  | nil => intro pos start end_ _ _ _ t ht; cases ht
  | cons c rest ih =>
    intro pos start end_ hpos hse hsp t ht
    have hc := hpos c (by simp)
    have hrest : ∀ x ∈ rest, 0 < x.size := fun x hx => hpos x (by simp [hx])
    rw [planAux, if_neg (by omega)] at ht
    by_cases h2 : pos > end_
    · rw [if_pos h2] at ht
      cases ht
    · rw [if_neg h2] at ht
      cases hL : planAux rest (pos + c.size) start end_ with
      | nil =>
        rw [hL] at ht
        simp at ht
      | cons y ys =>
        have hstop : ¬end_ < pos + c.size := by
          intro hx
          rw [planAux_stop rest _ _ _ hrest hse hx] at hL
          cases hL
        rw [hL, List.dropLast_cons_of_ne_nil (List.cons_ne_nil y ys)] at ht
        rcases List.mem_cons.mp ht with rfl | ht
        · show (max 0 (start - pos) == 0 && min c.size (end_ - pos + 1) == c.size) = true
          rw [Bool.and_eq_true, beq_iff_eq, beq_iff_eq]
          omega
        · rw [← hL] at ht
          exact ih _ _ _ hrest hse (by omega) t ht

theorem planAux_middle (chunks : List ChunkInfo) :
    ∀ pos start end_ : Int, (∀ c ∈ chunks, 0 < c.size) → start ≤ end_ → pos ≤ start →
      ∀ t ∈ (planAux chunks pos start end_).tail.dropLast, t.fullChunk = true := by
  induction chunks with
  | nil => intro pos start end_ _ _ _ t ht; cases ht
  | cons c rest ih =>
    intro pos start end_ hpos hse hps t ht
    have hc := hpos c (by simp)
    have hrest : ∀ x ∈ rest, 0 < x.size := fun x hx => hpos x (by simp [hx])
    rw [planAux] at ht
    by_cases h1 : pos + c.size - 1 < start
    · rw [if_pos h1] at ht
      exact ih _ _ _ hrest hse (by omega) t ht
    · by_cases h2 : pos > end_
      · rw [if_neg h1, if_pos h2] at ht
        cases ht
      · rw [if_neg h1, if_neg h2, List.tail_cons] at ht
        exact planAux_after_start rest _ _ _ hrest hse (by omega) t ht

theorem planAuxI_fullChunk (chunks : List ChunkInfo) :
    ∀ pos start end_ : Int, ∀ x ∈ planAuxI chunks pos start end_,
      (x.2.2.fullChunk = true ↔ x.2.2.sliceStart = 0 ∧ x.2.2.sliceEnd = x.2.1.size) := by
  induction chunks with
  | nil => intro pos start end_ x hx; cases hx
  | cons c rest ih =>
    intro pos start end_ x hx
    rw [planAuxI] at hx
    by_cases h1 : pos + c.size - 1 < start
    · rw [if_pos h1] at hx
      exact ih _ _ _ x hx
    · by_cases h2 : pos > end_
      · rw [if_neg h1, if_pos h2] at hx
        cases hx
      · rw [if_neg h1, if_neg h2] at hx
        rcases List.mem_cons.mp hx with rfl | hx
        · show (max 0 (start - pos) == 0 && min c.size (end_ - pos + 1) == c.size) = true ↔ _
          rw [Bool.and_eq_true, beq_iff_eq, beq_iff_eq]
        · exact ih _ _ _ x hx


theorem emitTask_slice (fetch : List Char → List Nat) (fid : List Char) (ss se n : Int)
    (hn : ((fetch fid).length : Int) = n) (hss : 0 ≤ ss) (hsl : ss ≤ n)
    (hse0 : 0 ≤ se) (hsel : se ≤ n) :
    emitTask fetch ⟨fid, ss, se, ss == 0 && se == n⟩ =
      ((fetch fid).drop ss.toNat).take (se - ss).toNat := by
  rw [emitTask]
  dsimp only
  by_cases h0 : ss = 0 ∧ se = n
  · rw [if_pos (by rw [Bool.and_eq_true, beq_iff_eq, beq_iff_eq]; exact h0)]
    rw [show ss.toNat = 0 by omega, List.drop_zero,
      show (se - ss).toNat = (fetch fid).length by omega, List.take_length]
  · rw [if_neg (by rw [Bool.and_eq_true, beq_iff_eq, beq_iff_eq]; exact h0)]
    rw [jsSlice, if_neg (by omega), if_neg (by omega),
      min_eq_left (by omega), min_eq_left (by omega)]

theorem assemble_planAux (chunks : List ChunkInfo) :
    ∀ (pos start end_ : Int) (fetch : List Char → List Nat),
      (∀ c ∈ chunks, 0 < c.size) →
      (∀ c ∈ chunks, ((fetch c.fileId).length : Int) = c.size) →
      start ≤ end_ → end_ < pos + sumSizes chunks →
      assembleBytes fetch (planAux chunks pos start end_) =
        ((fullContent fetch chunks).drop (max start pos - pos).toNat).take
          (end_ + 1 - max start pos).toNat := by
  induction chunks with
  | nil =>
    intro pos start end_ fetch _ _ hse htot
    show assembleBytes fetch [] = _
    simp [assembleBytes, fullContent]
  | cons c rest ih =>
    intro pos start end_ fetch hpos hlen hse htot
    have hc := hpos c (by simp)
    have hcl := hlen c (by simp)
    have hrest : ∀ x ∈ rest, 0 < x.size := fun x hx => hpos x (by simp [hx])
    have hrlen : ∀ x ∈ rest, ((fetch x.fileId).length : Int) = x.size :=
      fun x hx => hlen x (by simp [hx])
    rw [sumSizes_cons] at htot
    have hfc : fullContent fetch (c :: rest) = fetch c.fileId ++ fullContent fetch rest := by
      simp [fullContent]
    rw [planAux, hfc]
    by_cases h1 : pos + c.size - 1 < start
    · rw [if_pos h1, ih (pos + c.size) start end_ fetch hrest hrlen hse (by omega)]
      have hrw : ((fetch c.fileId ++ fullContent fetch rest).drop
            (max start pos - pos).toNat).take (end_ + 1 - max start pos).toNat =
          ((fullContent fetch rest).drop
            (max start (pos + c.size) - (pos + c.size)).toNat).take
            (end_ + 1 - max start (pos + c.size)).toNat := by
        rw [List.drop_append_eq_append_drop, List.drop_eq_nil_of_le (by omega),
          List.nil_append,
          show (max start pos - pos).toNat - (fetch c.fileId).length =
            (max start (pos + c.size) - (pos + c.size)).toNat by omega,
          show (end_ + 1 - max start pos).toNat =
            (end_ + 1 - max start (pos + c.size)).toNat by omega]
      rw [hrw]
    · by_cases h2 : pos > end_
      · rw [if_neg h1, if_pos h2]
        show assembleBytes fetch [] = _
        rw [show (end_ + 1 - max start pos).toNat = 0 by omega, List.take_zero]
        rfl
      · rw [if_neg h1, if_neg h2]
        show emitTask fetch _ ++ assembleBytes fetch _ = _
        rw [emitTask_slice fetch c.fileId _ _ c.size hcl (by omega) (by omega) (by omega)
            (by omega),
          ih (pos + c.size) start end_ fetch hrest hrlen hse (by omega)]
        have hrw : ((fetch c.fileId ++ fullContent fetch rest).drop
              (max start pos - pos).toNat).take (end_ + 1 - max start pos).toNat =
            ((fetch c.fileId).drop (max 0 (start - pos)).toNat).take
              (min c.size (end_ - pos + 1) - max 0 (start - pos)).toNat ++
            ((fullContent fetch rest).drop
              (max start (pos + c.size) - (pos + c.size)).toNat).take
              (end_ + 1 - max start (pos + c.size)).toNat := by
          rw [List.drop_append_eq_append_drop,
            show (max start pos - pos).toNat - (fetch c.fileId).length = 0 by omega,
            List.drop_zero, List.take_append_eq_append_take]
          have he1 : ((fetch c.fileId).drop (max start pos - pos).toNat).take
                (end_ + 1 - max start pos).toNat =
              ((fetch c.fileId).drop (max 0 (start - pos)).toNat).take
                (min c.size (end_ - pos + 1) - max 0 (start - pos)).toNat := by
            rw [show (max start pos - pos).toNat = (max 0 (start - pos)).toNat by omega,
              List.take_eq_take, List.length_drop]
            omega
          have he2 : (end_ + 1 - max start pos).toNat -
                ((fetch c.fileId).drop (max start pos - pos).toNat).length =
              (end_ + 1 - max start (pos + c.size)).toNat := by
            rw [List.length_drop]
            omega
          have he3 : (max start (pos + c.size) - (pos + c.size)).toNat = 0 := by omega
          rw [he1, he2, he3, List.drop_zero]
        exact hrw.symm

theorem parseRange_bounds (hdr : Option (List Char)) (total : Int) :
    0 ≤ (parseRange hdr total).1 ∧ (parseRange hdr total).2.1 ≤ total - 1 := by
  match hdr with
  | none => exact ⟨le_refl 0, le_refl _⟩
  | some h =>
    rw [parseRange]
    cases hs : regexSearch h with
    | none => exact ⟨le_refl 0, le_refl _⟩
    | some g =>
      match g with
      | (g1, g2) =>
        constructor
        · show (0 : Int) ≤ if g1.isEmpty then 0 else (digitsToNat g1 : Int)
          split
          · exact le_refl 0
          · exact Int.natCast_nonneg _
        · show (if g2.isEmpty then total - 1 else min (digitsToNat g2 : Int) (total - 1)) ≤
            total - 1
          split
          · exact le_refl _
          · exact min_le_right _ _

theorem parseRange_status (hdr : Option (List Char)) (total : Int) :
    (parseRange hdr total).2.2 = 200 ∨ (parseRange hdr total).2.2 = 206 := by
  match hdr with
  | none => exact Or.inl rfl
  | some h =>
    rw [parseRange]
    cases hs : regexSearch h with
    | none => exact Or.inl rfl
    | some g =>
      match g with
      | (g1, g2) => exact Or.inr rfl

theorem regexSearch_suffix (ds : List Char) (hd : ∀ c ∈ ds, c.isDigit = true) :
    regexSearch ('b' :: 'y' :: 't' :: 'e' :: 's' :: '=' :: '-' :: ds) = some ([], ds) := by
  have h1 : List.dropWhile Char.isDigit ('-' :: ds) = '-' :: ds := by
    rw [List.dropWhile_cons]
    simp
  have h2 : List.takeWhile Char.isDigit ('-' :: ds) = [] := by
    rw [List.takeWhile_cons]
    simp
  rw [regexSearch]
  have hm : regexMatchAt ('b' :: 'y' :: 't' :: 'e' :: 's' :: '=' :: '-' :: ds) =
      some ([], ds) := by
    rw [regexMatchAt, h1, h2]
    show some ([], List.takeWhile Char.isDigit ds) = some ([], ds)
    rw [takeWhile_eq_self hd]
  rw [hm]

/-- Witness fetch function: two remote objects with 2 and 3 bytes. -/
def fetchW : List Char → List Nat :=
  fun fid => if fid = ['a'] then [10, 20] else [30, 40, 50]

/-- Witness manifest: chunks `a:2` and `b:3`. -/
def chunksW : List ChunkInfo := [⟨['a'], 2⟩, ⟨['b'], 3⟩]

/-- C1: for a valid manifest (non-empty, positive declared sizes), a range
`0 ≤ start ≤ end ≤ totalSize - 1`, and remote objects whose materialised
length equals the declared size, the concatenated bytes of the assembled
stream over the planned tasks are exactly bytes `start..end` of the
logical concatenation of all chunks' contents. -/
theorem c1_assembled_stream_is_range_window (chunks : List ChunkInfo)
    (fetch : List Char → List Nat) (start end_ : Int)
    (hne : chunks ≠ [])
    (hpos : ∀ c ∈ chunks, 0 < c.size)
    (hlen : ∀ c ∈ chunks, ((fetch c.fileId).length : Int) = c.size)
    (h0 : 0 ≤ start) (hse : start ≤ end_) (hend : end_ ≤ sumSizes chunks - 1) :
    assembleBytes fetch (planAux chunks 0 start end_) =
      ((fullContent fetch chunks).drop start.toNat).take (end_ - start + 1).toNat := by
  rw [assemble_planAux chunks 0 start end_ fetch hpos hlen hse (by omega),
    show max start 0 - 0 = start by omega,
    show end_ + 1 - max start 0 = end_ - start + 1 by omega]

/-- Witness for C1 at the concrete manifest `a:2,b:3` and range 1..3. -/
theorem c1_assembled_stream_is_range_window_witness :
    assembleBytes fetchW (planAux chunksW 0 1 3) = [20, 30, 40] :=
  (c1_assembled_stream_is_range_window chunksW fetchW 1 3 (by decide) (by decide)
    (by decide) (by decide) (by decide) (by decide)).trans (by decide)

/-- C2: for positive declared sizes and `0 ≤ start ≤ end < totalSize`, the
plan is the task part of the instrumented plan, every task has
`sliceEnd > sliceStart`, the slice lengths sum to `end - start + 1`, and
the absolute logical intervals of the tasks are adjacent (hence
non-overlapping, strictly increasing, and in manifest order) and
non-degenerate. -/
theorem c2_plan_partition (chunks : List ChunkInfo) (start end_ : Int)
    (hpos : ∀ c ∈ chunks, 0 < c.size) (h0 : 0 ≤ start) (hse : start ≤ end_)
    (hend : end_ < sumSizes chunks) :
    planAux chunks 0 start end_ = (planAuxI chunks 0 start end_).map (fun x => x.2.2) ∧
    (∀ t ∈ planAux chunks 0 start end_, t.sliceStart < t.sliceEnd) ∧
    ((planAux chunks 0 start end_).map (fun t => t.sliceEnd - t.sliceStart)).sum =
      end_ - start + 1 ∧
    List.Chain' (fun a b : Int × Int => a.2 = b.1)
      ((planAuxI chunks 0 start end_).map absIv) ∧
    (∀ iv ∈ (planAuxI chunks 0 start end_).map absIv, iv.1 < iv.2) := by
  refine ⟨(planAuxI_map chunks 0 start end_).symm,
    fun t ht => (planAux_slice_bounds chunks 0 start end_ hpos hse t ht).2, ?_,
    (planAuxI_chain chunks 0 start end_ hpos hse).1, ?_⟩
  · rw [planAux_sum chunks 0 start end_ hpos hse (by omega)]
    omega
  · intro iv hiv
    rw [List.mem_map] at hiv
    obtain ⟨x, hx, rfl⟩ := hiv
    have hmem : x.2.2 ∈ planAux chunks 0 start end_ := by
      rw [← planAuxI_map chunks 0 start end_]
      exact List.mem_map_of_mem _ hx
    have hb := (planAux_slice_bounds chunks 0 start end_ hpos hse x.2.2 hmem).2
    show x.1 + x.2.2.sliceStart < x.1 + x.2.2.sliceEnd
    omega

/-- Witness for C2: manifest `a:2,b:3`, range 1..3 gives slice lengths
summing to 3 and tasks with positive lengths. -/
theorem c2_plan_partition_witness :
    ((planAux chunksW 0 1 3).map (fun t => t.sliceEnd - t.sliceStart)).sum = 3 ∧
    (planAux chunksW 0 1 3).all (fun t => t.sliceStart < t.sliceEnd) = true := by
  have h := c2_plan_partition chunksW 1 3 (by decide) (by decide) (by decide) (by decide)
  refine ⟨h.2.2.1.trans (by decide), ?_⟩
  rw [List.all_eq_true]
  intro t ht
  simpa using h.2.1 t ht

/-- C8: in every plan over positive sizes with a valid range, every task
other than the first and the last is a passthrough task, and (on the
instrumented plan) `fullChunk` holds exactly when the slice spans the
whole chunk: `sliceStart = 0` and `sliceEnd = chunkSize`. -/
theorem c8_only_boundary_tasks_sliced (chunks : List ChunkInfo) (start end_ : Int)
    (hpos : ∀ c ∈ chunks, 0 < c.size) (h0 : 0 ≤ start) (hse : start ≤ end_)
    (hend : end_ < sumSizes chunks) :
    (∀ t ∈ (planAux chunks 0 start end_).tail.dropLast, t.fullChunk = true) ∧
    (∀ x ∈ planAuxI chunks 0 start end_,
      (x.2.2.fullChunk = true ↔ x.2.2.sliceStart = 0 ∧ x.2.2.sliceEnd = x.2.1.size)) :=
  ⟨planAux_middle chunks 0 start end_ hpos hse h0,
   planAuxI_fullChunk chunks 0 start end_⟩

/-- Witness for C8: four chunks, range 1..6: the two middle tasks are
passthrough. -/
theorem c8_only_boundary_tasks_sliced_witness :
    ((planAux [⟨['a'], 2⟩, ⟨['b'], 2⟩, ⟨['c'], 2⟩, ⟨['d'], 2⟩] 0 1 6).tail.dropLast).all
      (fun t => t.fullChunk) = true := by
  have h := c8_only_boundary_tasks_sliced [⟨['a'], 2⟩, ⟨['b'], 2⟩, ⟨['c'], 2⟩, ⟨['d'], 2⟩]
    1 6 (by decide) (by decide) (by decide) (by decide)
  rw [List.all_eq_true]
  exact h.1

theorem handle_valid (pf : Platform) (p : List Char) (hdr : Option (List Char))
    (chunks : List ChunkInfo) (total s e : Int) (st : Nat)
    (hdec : decodeChunks pf p = some chunks)
    (htot : total = sumSizes chunks)
    (hpr : parseRange hdr total = (s, e, st))
    (hok : ¬(s ≥ total ∨ s > e)) :
    handle pf (some p) hdr =
      ⟨st, if st = 206 then some s!"bytes {s}-{e}/{total}" else none,
        some (e - s + 1), some "bytes", some "video/mp4",
        some "public, max-age=31536000, immutable",
        .stream (planAux chunks 0 s e)⟩ := by
  subst htot
  simp only [handle, hdec, hpr]
  rw [if_neg hok]

theorem handle_invalid (pf : Platform) (p : List Char) (hdr : Option (List Char))
    (chunks : List ChunkInfo) (total s e : Int) (st : Nat)
    (hdec : decodeChunks pf p = some chunks)
    (htot : total = sumSizes chunks)
    (hpr : parseRange hdr total = (s, e, st))
    (hbad : s ≥ total ∨ s > e) :
    handle pf (some p) hdr =
      ⟨416, some s!"bytes */{total}", none, none, none, none,
        .text "Range Not Satisfiable"⟩ := by
  subst htot
  simp only [handle, hdec, hpr]
  rw [if_pos hbad]

/-- C3 (amended): the handler sets `Content-Length` to the nominal span
`end - start + 1`; when every declared size is positive this coincides
with the sum of the planned tasks' slice lengths, which is what the body
stream emits. (The code computes `end - start + 1` directly; the two
quantities agree only under positive declared sizes, see the
counterexample.) -/
theorem c3_content_length_matches_slice_sum_when_sizes_positive (pf : Platform)
    (p : List Char) (hdr : Option (List Char)) (chunks : List ChunkInfo)
    (s e : Int) (st : Nat)
    (hdec : decodeChunks pf p = some chunks)
    (hpos : ∀ c ∈ chunks, 0 < c.size)
    (hpr : parseRange hdr (sumSizes chunks) = (s, e, st))
    (hs : s < sumSizes chunks) (hse : s ≤ e) :
    (handle pf (some p) hdr).contentLength = some (e - s + 1) ∧
    (handle pf (some p) hdr).contentLength =
      some (((planAux chunks 0 s e).map (fun t => t.sliceEnd - t.sliceStart)).sum) ∧
    (handle pf (some p) hdr).body = RBody.stream (planAux chunks 0 s e) := by
  have hh := handle_valid pf p hdr chunks (sumSizes chunks) s e st hdec rfl hpr (by omega)
  rw [hh]
  refine ⟨rfl, ?_, rfl⟩
  have hb := parseRange_bounds hdr (sumSizes chunks)
  rw [hpr] at hb
  obtain ⟨hb1, hb2⟩ := hb
  dsimp only at hb1 hb2
  show some (e - s + 1) = _
  rw [planAux_sum chunks 0 s e hpos hse (by omega)]
  simp only [Option.some.injEq]
  omega

/-- Counterexample to C3 as stated: the decoded manifest `a:2,b:-2,c:2,d:2`
with no Range header is served with `Content-Length: 4` (the nominal span
`end - start + 1`), while the planned tasks' slice lengths sum to `6`:
the header is computed from the nominal span, not from the slice sum. -/
theorem c3_content_length_counterexample :
    (handle toyPf (some "a:2,b:-2,c:2,d:2".data) none).contentLength = some 4 ∧
    (handle toyPf (some "a:2,b:-2,c:2,d:2".data) none).body =
      RBody.stream (planAux [⟨['a'], 2⟩, ⟨['b'], -2⟩, ⟨['c'], 2⟩, ⟨['d'], 2⟩] 0 0 3) ∧
    ((planAux [⟨['a'], 2⟩, ⟨['b'], -2⟩, ⟨['c'], 2⟩, ⟨['d'], 2⟩] 0 0 3).map
      (fun t => t.sliceEnd - t.sliceStart)).sum = 6 ∧
    (4 : Int) ≠ 6 := by
  refine ⟨by decide, by decide, by decide, by decide⟩

/-- Witness for the amended C3 at manifest `a:2,b:3` with no Range header. -/
theorem c3_content_length_witness :
    (handle toyPf (some "a:2,b:3".data) none).contentLength = some 5 ∧
    (handle toyPf (some "a:2,b:3".data) none).contentLength =
      some (((planAux chunksW 0 0 4).map (fun t => t.sliceEnd - t.sliceStart)).sum) := by
  have h := c3_content_length_matches_slice_sum_when_sizes_positive toyPf
    "a:2,b:3".data none chunksW 0 4 200 (by decide) (by decide) (by decide)
    (by decide) (by decide)
  exact ⟨h.1.trans (by decide), h.2.1⟩

/-- C6 (amended): whenever the decoded manifest's range is unsatisfiable
(`start >= totalSize` or `start > end`), the handler answers `416` with
`Content-Range: bytes */<totalSize>` and the fixed text body
`Range Not Satisfiable` (not an empty body). -/
theorem c6_unsatisfiable_range_416_with_text_body (pf : Platform) (p : List Char)
    (hdr : Option (List Char)) (chunks : List ChunkInfo) (total s e : Int) (st : Nat)
    (hdec : decodeChunks pf p = some chunks)
    (htot : total = sumSizes chunks)
    (hpr : parseRange hdr total = (s, e, st))
    (hbad : s ≥ total ∨ s > e) :
    (handle pf (some p) hdr).status = 416 ∧
    (handle pf (some p) hdr).contentRange = some s!"bytes */{total}" ∧
    (handle pf (some p) hdr).body = RBody.text "Range Not Satisfiable" := by
  rw [handle_invalid pf p hdr chunks total s e st hdec htot hpr hbad]
  exact ⟨rfl, rfl, rfl⟩

/-- Counterexample to C6 as stated: for manifest `a:5` and header
`bytes=9-`, the 416 response's body is the text `Range Not Satisfiable`,
not an empty body. -/
theorem c6_counterexample_nonempty_body :
    (handle toyPf (some "a:5".data) (some "bytes=9-".data)).status = 416 ∧
    (handle toyPf (some "a:5".data) (some "bytes=9-".data)).contentRange =
      some "bytes */5" ∧
    (handle toyPf (some "a:5".data) (some "bytes=9-".data)).body =
      RBody.text "Range Not Satisfiable" ∧
    RBody.text "Range Not Satisfiable" ≠ RBody.text "" := by
  refine ⟨by decide, by decide, by decide, by decide⟩

/-- Witness for the amended C6 at manifest `a:5`, header `bytes=9-`. -/
theorem c6_unsatisfiable_range_witness :
    (handle toyPf (some "a:5".data) (some "bytes=9-".data)).status = 416 ∧
    (handle toyPf (some "a:5".data) (some "bytes=9-".data)).contentRange =
      some "bytes */5" := by
  have h := c6_unsatisfiable_range_416_with_text_body toyPf "a:5".data
    (some "bytes=9-".data) [⟨['a'], 5⟩] 5 9 4 206 (by decide) (by decide) (by decide)
    (by decide)
  exact ⟨h.1, h.2.1.trans (by decide)⟩

/-- C5 (amended): for a non-passthrough task whose fetched object holds
fewer bytes than `sliceEnd`, the assembler raises no error: it enqueues
`data.slice(sliceStart, sliceEnd)`, whose end index clamps to the
materialised length, so the emitted bytes are the silently truncated
suffix `data.drop sliceStart` rather than the requested slice. -/
theorem c5_short_object_silently_truncated (fetch : List Char → List Nat)
    (t : ChunkTask) (hfull : t.fullChunk = false) (hss : 0 ≤ t.sliceStart)
    (hshort : ((fetch t.fileId).length : Int) < t.sliceEnd) :
    emitTask fetch t = (fetch t.fileId).drop t.sliceStart.toNat := by
  have hn0 : (0 : Int) ≤ (fetch t.fileId).length := Int.natCast_nonneg _
  rw [emitTask, if_neg (by rw [hfull]; exact Bool.false_ne_true), jsSlice,
    if_neg (by omega), if_neg (by omega), min_eq_right (by omega)]
  by_cases hcase : t.sliceStart ≤ ((fetch t.fileId).length : Int)
  · rw [min_eq_left hcase]
    apply List.take_of_length_le
    rw [List.length_drop]
    omega
  · rw [min_eq_right (by omega)]
    rw [show ((fetch t.fileId).length : Int).toNat = (fetch t.fileId).length by omega,
      List.drop_length, List.take_nil, List.drop_eq_nil_of_le (by omega)]

/-- Counterexample to C5 as stated: a sliced task with `sliceEnd = 5` over
an object that materialises to only 3 bytes makes the assembler emit the
3 truncated bytes and complete normally; no `AssemblyError` exists in the
code, and the stream is not aborted. -/
theorem c5_counterexample_no_assembly_error :
    emitTask (fun _ => [1, 2, 3]) ⟨['a'], 0, 5, false⟩ = [1, 2, 3] ∧
    assembleBytes (fun _ => [1, 2, 3]) [⟨['a'], 0, 5, false⟩] = [1, 2, 3] ∧
    (([1, 2, 3] : List Nat).length : Int) < 5 := by
  refine ⟨by decide, by decide, by decide⟩

/-- Witness for the amended C5: slicing `[7, 8, 9]` from 1 to 5 emits the
truncated `[8, 9]`. -/
theorem c5_short_object_silently_truncated_witness :
    emitTask (fun _ => [7, 8, 9]) ⟨['a'], 1, 5, false⟩ = [8, 9] :=
  (c5_short_object_silently_truncated (fun _ => [7, 8, 9]) ⟨['a'], 1, 5, false⟩
    (by decide) (by decide) (by decide)).trans (by decide)

/-- C4 (amended): for a plain-format input (one containing `:`), manifest
decoding fails — and the endpoint answers 400 — exactly when some parsed
entry is missing its identifier or has a non-numeric (`NaN`) size. The
empty input falls under the missing-identifier case; zero or negative
numeric sizes are accepted, not rejected (see the counterexample). -/
theorem c4_manifest_rejection_characterisation (pf : Platform) (p : List Char)
    (hdr : Option (List Char)) (hc : ':' ∈ p) :
    ((handle pf (some p) hdr).status = 400 ↔
      ∃ rc ∈ parsePlain p, rc.fileId = [] ∨ rc.size = none) ∧
    (decodeChunks pf p = none ↔
      ∃ rc ∈ parsePlain p, rc.fileId = [] ∨ rc.size = none) := by
  have hpm : parseChunksM pf p = some (parsePlain p) := by
    rw [parseChunksM, if_pos hc]
  have hie : (parsePlain p).isEmpty = false := by
    rw [parsePlain]
    cases hsp : splitCh ',' p with
    | nil => exact absurd hsp (splitCh_ne_nil ',' p)
    | cons a l => simp
  have hiff : ((parsePlain p).any (fun c => c.fileId.isEmpty || c.size.isNone) = true) ↔
      ∃ rc ∈ parsePlain p, rc.fileId = [] ∨ rc.size = none := by
    rw [List.any_eq_true]
    constructor
    · rintro ⟨rc, hrc, hb⟩
      rw [Bool.or_eq_true] at hb
      refine ⟨rc, hrc, ?_⟩
      rcases hb with hb | hb
      · exact Or.inl (List.isEmpty_iff.mp hb)
      · exact Or.inr (Option.isNone_iff_eq_none.mp hb)
    · rintro ⟨rc, hrc, hb⟩
      refine ⟨rc, hrc, ?_⟩
      rw [Bool.or_eq_true]
      rcases hb with hb | hb
      · exact Or.inl (List.isEmpty_iff.mpr hb)
      · exact Or.inr (Option.isNone_iff_eq_none.mpr hb)
  by_cases hany : (parsePlain p).any (fun c => c.fileId.isEmpty || c.size.isNone) = true
  · have hdec : decodeChunks pf p = none := by
      rw [decodeChunks, hpm]
      show (if ((parsePlain p).isEmpty ||
          (parsePlain p).any fun c => c.fileId.isEmpty || c.size.isNone) = true then none
        else some ((parsePlain p).map fun c => (⟨c.fileId, c.size.getD 0⟩ : ChunkInfo))) =
        none
      rw [hie, hany, Bool.false_or, if_pos rfl]
    have hh : handle pf (some p) hdr = ⟨400, none, none, none, none, none,
        .jsonError "Invalid chunks format. Expected: file_id:size,file_id:size,... or compressed base64url"⟩ := by
      simp only [handle, hdec]
    exact ⟨iff_of_true (by rw [hh]) (hiff.mp hany),
      iff_of_true hdec (hiff.mp hany)⟩
  · have hany' : (parsePlain p).any (fun c => c.fileId.isEmpty || c.size.isNone) = false :=
      eq_false_of_ne_true hany
    have hdec : decodeChunks pf p =
        some ((parsePlain p).map fun c => ⟨c.fileId, c.size.getD 0⟩) := by
      rw [decodeChunks, hpm]
      show (if ((parsePlain p).isEmpty ||
          (parsePlain p).any fun c => c.fileId.isEmpty || c.size.isNone) = true then none
        else some ((parsePlain p).map fun c => (⟨c.fileId, c.size.getD 0⟩ : ChunkInfo))) =
        some ((parsePlain p).map fun c => (⟨c.fileId, c.size.getD 0⟩ : ChunkInfo))
      rw [hie, hany', Bool.false_or, if_neg Bool.false_ne_true]
    have hrhs : ¬∃ rc ∈ parsePlain p, rc.fileId = [] ∨ rc.size = none := by
      intro hex
      rw [hiff.mpr hex] at hany'
      cases hany'
    refine ⟨iff_of_false ?_ hrhs, iff_of_false (by rw [hdec]; simp) hrhs⟩
    rcases hpr : parseRange hdr
        (sumSizes ((parsePlain p).map fun c => ⟨c.fileId, c.size.getD 0⟩)) with ⟨s, est⟩
    rcases est with ⟨e, st⟩
    by_cases hval : s ≥ sumSizes ((parsePlain p).map fun c => ⟨c.fileId, c.size.getD 0⟩) ∨
        s > e
    · rw [handle_invalid pf p hdr _ _ s e st hdec rfl hpr hval]
      intro hcontra
      cases hcontra
    · rw [handle_valid pf p hdr _ _ s e st hdec rfl hpr hval]
      have hst := parseRange_status hdr
        (sumSizes ((parsePlain p).map fun c => ⟨c.fileId, c.size.getD 0⟩))
      rw [hpr] at hst
      dsimp only at hst
      show st = 400 → False
      intro hcontra
      rcases hst with hst | hst <;> omega

/-- Counterexample to C4 as stated: the manifest `a:0` declares a
non-positive size yet decodes successfully, and the endpoint answers 416
(empty resource), not a 400 manifest error. -/
theorem c4_counterexample_zero_size_accepted :
    decodeChunks toyPf "a:0".data = some [⟨['a'], 0⟩] ∧
    (handle toyPf (some "a:0".data) none).status = 416 ∧
    (handle toyPf (some "a:0".data) none).status ≠ 400 := by
  refine ⟨by decide, by decide, by decide⟩

/-- Witness for the amended C4: `a:x` (non-numeric size) is rejected with
status 400, via the characterisation. -/
theorem c4_manifest_rejection_witness :
    (handle toyPf (some "a:x".data) none).status = 400 := by
  have h := c4_manifest_rejection_characterisation toyPf "a:x".data none (by decide)
  exact h.1.mpr (by decide)

/-- C7: Range-header interpretation. No header gives the full range with
status 200; a header in which the unanchored regex `bytes=(\d*)-(\d*)`
finds a match gives start = parsed first group (0 when empty) and
end = min(parsed second group, totalSize-1) (totalSize-1 when empty) with
status 206; a header without a match behaves exactly like an absent
header: full range, status 200. -/
theorem c7_range_header_interpretation (total : Int) :
    parseRange none total = (0, total - 1, 200) ∧
    (∀ h g1 g2, regexSearch h = some (g1, g2) →
      parseRange (some h) total =
        ((if g1.isEmpty then 0 else (digitsToNat g1 : Int)),
         (if g2.isEmpty then total - 1 else min (digitsToNat g2 : Int) (total - 1)),
         206)) ∧
    (∀ h, regexSearch h = none → parseRange (some h) total = parseRange none total) := by
  refine ⟨rfl, ?_, ?_⟩
  · intro h g1 g2 hs
    rw [parseRange, hs]
  · intro h hs
    conv_lhs => rw [parseRange, hs]
    rfl

/-- Witness for C7: a matching header, a non-matching header, and an
absent header over a resource of 10 bytes. -/
theorem c7_range_header_interpretation_witness :
    parseRange (some "bytes=2-5".data) 10 = (2, 5, 206) ∧
    parseRange (some "garbage".data) 10 = (0, 9, 200) ∧
    parseRange none 10 = (0, 9, 200) := by
  have h := c7_range_header_interpretation 10
  refine ⟨(h.2.1 "bytes=2-5".data ['2'] ['5'] (by decide)).trans (by decide),
    (h.2.2 "garbage".data (by decide)).trans (h.1.trans (by decide)),
    h.1.trans (by decide)⟩

/-- C9: `decode (encode manifest) = manifest` for every non-empty manifest
whose identifiers are non-empty and avoid `:` and `,`, with positive
sizes. The plain form holds unconditionally; the compressed form holds
under the platform contract for the primitives the source delegates to:
the base64 encoder emits no `-`, `_` or `:`, its output is its stripped
form re-padded, `atob` inverts it, and raw-deflate decompression inverts
compression. The decoder auto-detects the form by the absence of `:`. -/
theorem c9_encode_decode_roundtrip (pf : Platform) (btoa : List Nat → List Char)
    (deflateStr : List Char → List Nat) (m : List ChunkInfo) (hm : m ≠ [])
    (hv : ∀ c ∈ m, c.fileId ≠ [] ∧ ':' ∉ c.fileId ∧ ',' ∉ c.fileId ∧ 0 < c.size) :
    decodeChunks pf (encodePlain m) = some m ∧
    ((∀ ch ∈ btoa (deflateStr (encodePlain m)), ch ≠ '-' ∧ ch ≠ '_' ∧ ch ≠ ':') →
      repad (stripEq (btoa (deflateStr (encodePlain m)))) =
        btoa (deflateStr (encodePlain m)) →
      pf.atob (btoa (deflateStr (encodePlain m))) = some (deflateStr (encodePlain m)) →
      pf.inflateStr (deflateStr (encodePlain m)) = some (encodePlain m) →
      decodeChunks pf (encodeCompressed btoa deflateStr m) = some m) :=
  ⟨decodeChunks_encodePlain pf m hm hv,
   fun h1 h2 h3 h4 => decodeChunks_encodeCompressed pf btoa deflateStr m hm hv h1 h2 h3 h4⟩

/-- Witness for C9 with the toy platform codec at a two-chunk manifest. -/
theorem c9_encode_decode_roundtrip_witness :
    decodeChunks toyPf (encodePlain [⟨['a'], 3⟩, ⟨['b', 'c'], 12⟩]) =
      some [⟨['a'], 3⟩, ⟨['b', 'c'], 12⟩] ∧
    decodeChunks toyPf (encodeCompressed toyBtoa toyDeflate [⟨['a'], 3⟩, ⟨['b', 'c'], 12⟩]) =
      some [⟨['a'], 3⟩, ⟨['b', 'c'], 12⟩] := by
  have h := c9_encode_decode_roundtrip toyPf toyBtoa toyDeflate
    [⟨['a'], 3⟩, ⟨['b', 'c'], 12⟩] (by decide) (by decide)
  exact ⟨h.1, h.2 (by decide) (by decide) (by decide) (by decide)⟩

/-- C10: for a decoded manifest of positive total size, a suffix-form
header `bytes=-N` is accepted with status 206, `start = 0` and
`end = min(N, totalSize-1)`, and (under exact materialised lengths) the
streamed body is the first `min(N+1, totalSize)` bytes of the resource —
not the last N bytes as HTTP suffix-range semantics would require. -/
theorem c10_suffix_range_serves_prefix (pf : Platform) (p : List Char)
    (chunks : List ChunkInfo) (fetch : List Char → List Nat) (ds : List Char)
    (total : Int)
    (hdec : decodeChunks pf p = some chunks)
    (htot : total = sumSizes chunks) (htpos : 0 < total)
    (hne : ds ≠ []) (hdig : ∀ c ∈ ds, c.isDigit = true)
    (hpos : ∀ c ∈ chunks, 0 < c.size)
    (hlen : ∀ c ∈ chunks, ((fetch c.fileId).length : Int) = c.size) :
    parseRange (some ('b' :: 'y' :: 't' :: 'e' :: 's' :: '=' :: '-' :: ds)) total =
      (0, min (digitsToNat ds : Int) (total - 1), 206) ∧
    (handle pf (some p) (some ('b' :: 'y' :: 't' :: 'e' :: 's' :: '=' :: '-' :: ds))).status
      = 206 ∧
    (handle pf (some p) (some ('b' :: 'y' :: 't' :: 'e' :: 's' :: '=' :: '-' :: ds))).body
      = RBody.stream (planAux chunks 0 0 (min (digitsToNat ds : Int) (total - 1))) ∧
    assembleBytes fetch (planAux chunks 0 0 (min (digitsToNat ds : Int) (total - 1))) =
      (fullContent fetch chunks).take (min ((digitsToNat ds : Int) + 1) total).toNat := by
  have hpr : parseRange (some ('b' :: 'y' :: 't' :: 'e' :: 's' :: '=' :: '-' :: ds)) total =
      (0, min (digitsToNat ds : Int) (total - 1), 206) := by
    rw [parseRange, regexSearch_suffix ds hdig]
    have hde : ds.isEmpty = false := by
      cases ds with
      | nil => exact absurd rfl hne
      | cons a l => rfl
    show (if ([] : List Char).isEmpty = true then (0 : Int) else (digitsToNat [] : Int),
        if ds.isEmpty = true then total - 1 else min (digitsToNat ds : Int) (total - 1),
        (206 : Nat)) = (0, min (digitsToNat ds : Int) (total - 1), 206)
    rw [hde]
    rfl
  have hd0 : (0 : Int) ≤ (digitsToNat ds : Int) := Int.natCast_nonneg _
  have hh := handle_valid pf p
    (some ('b' :: 'y' :: 't' :: 'e' :: 's' :: '=' :: '-' :: ds)) chunks total 0
    (min (digitsToNat ds : Int) (total - 1)) 206 hdec htot hpr (by omega)
  refine ⟨hpr, by rw [hh], by rw [hh], ?_⟩
  rw [assemble_planAux chunks 0 0 (min (digitsToNat ds : Int) (total - 1)) fetch hpos hlen
    (by omega) (by omega),
    show (max (0 : Int) 0 - 0).toNat = 0 by omega, List.drop_zero,
    show (min (digitsToNat ds : Int) (total - 1) + 1 - max (0 : Int) 0).toNat =
      (min ((digitsToNat ds : Int) + 1) total).toNat by omega]

/-- Witness for C10: manifest `a:2,b:3`, header `bytes=-4`: status 206,
end 4, and the body is the first five bytes. -/
theorem c10_suffix_range_serves_prefix_witness :
    parseRange (some "bytes=-4".data) 5 = (0, 4, 206) ∧
    (handle toyPf (some "a:2,b:3".data) (some "bytes=-4".data)).status = 206 ∧
    assembleBytes fetchW (planAux chunksW 0 0 4) = [10, 20, 30, 40, 50] := by
  have h := c10_suffix_range_serves_prefix toyPf "a:2,b:3".data chunksW fetchW
    ['4'] 5 (by decide) (by decide) (by decide) (by decide) (by decide) (by decide)
    (by decide)
  refine ⟨?_, ?_, ?_⟩
  · exact (show parseRange (some "bytes=-4".data) 5 =
      parseRange (some ('b' :: 'y' :: 't' :: 'e' :: 's' :: '=' :: '-' :: ['4'])) 5
      from rfl).trans (h.1.trans (by decide))
  · exact h.2.1
  · exact h.2.2.2.trans (by decide)
